import Mathlib

/-!
# MatrixMarket helper script `process.js`

A shallow embedding of `src/process.js` and theorems about it.

JavaScript strings are modelled as lists of characters.  Every character the
script compares against or matches with a regular expression (`%`, CR, LF and
the members of `\s`) lies in the Basic Multilingual Plane, so matching per
character agrees with matching per UTF-16 code unit.

The file system is seen through `readline`: a readable file is the list of
lines that `readline.createInterface` yields for it.
-/

set_option autoImplicit false

namespace Process

/-- A JavaScript string. -/
abbrev Str := List Char

/-! ## Region FILE -/

/-- The global replacement `d.replace(/\r?\n/g, eol)`: scanning left to right,
a LF, or a CR immediately followed by a LF, is replaced by `eol`; every other
character is copied. -/
def replaceEol (eol : Str) : Str → Str
  | [] => []
  | [c] => if c = '\n' then eol else [c]
  | c :: d :: ds =>
    if c = '\n' then eol ++ replaceEol eol (d :: ds)
    else if c = '\r' ∧ d = '\n' then eol ++ replaceEol eol ds
    else c :: replaceEol eol (d :: ds)

/-- The text `readFile` returns for a file whose decoded content is `d`. -/
def readFile (d : Str) : Str := replaceEol ['\n'] d

/-- The text `writeFile` hands to `fs.writeFileSync` for `d`, on a host whose
`os.EOL` is `eol`. -/
def writeFile (eol : Str) (d : Str) : Str := replaceEol eol d

/-! ## Line predicates and rewriting -/

/-- The test `line[0]==='%'`; on the empty line `line[0]` is `undefined`. -/
def isComment (line : Str) : Bool :=
  match line with
  | [] => false
  | c :: _ => c == '%'

/-- The class `\s` of ECMAScript regular expressions: white space and line
terminators. -/
def isSpace (c : Char) : Bool :=
  let n := c.toNat
  n == 0x09 || n == 0x0A || n == 0x0B || n == 0x0C || n == 0x0D || n == 0x20 ||
  n == 0xA0 || n == 0x1680 || (0x2000 ≤ n && n ≤ 0x200A) || n == 0x2028 ||
  n == 0x2029 || n == 0x202F || n == 0x205F || n == 0x3000 || n == 0xFEFF

/-- Scanner for `replace(/\s+/g, '\t')`.  The flag tells whether the scanner is
inside a match of `\s+`: the match begins at a white-space character, where the
tab is produced, and greedily swallows the white space that follows. -/
def replaceWsFrom (inMatch : Bool) : Str → Str
  | [] => []
  | c :: cs =>
    if isSpace c then
      if inMatch then replaceWsFrom true cs else '\t' :: replaceWsFrom true cs
    else c :: replaceWsFrom false cs

/-- The expression `line.replace(/\s+/g, '\t')`. -/
def replaceWs (line : Str) : Str := replaceWsFrom false line

/-! ## The world the script runs in -/

/-- The ways a call can fail (a thrown error or rejected promise). -/
inductive JsError where
  /-- A path argument is `undefined`. -/
  | invalidArgType
  /-- The file cannot be opened for reading. -/
  | cannotOpen (pth : Str)
  deriving DecidableEq, Repr

/-- What the script can observe and change. -/
structure World where
  /-- Readable files: the lines `readline` yields for the file at a path. -/
  files : Str → Option (List Str)
  /-- Paths opened for reading, latest first. -/
  opened : List Str
  /-- Files created through a write stream, latest first, with their content. -/
  written : List (Str × Str)
  /-- Text sent to standard output. -/
  stdout : Str
  /-- Text sent to standard error. -/
  stderr : Str

/-- The call `fs.createReadStream(pth)` wrapped in a `readline` interface. -/
def openLines (w : World) (pth : Option Str) : Except JsError (List Str × World) :=
  match pth with
  | none => .error .invalidArgType
  | some p =>
    match w.files p with
    | none => .error (.cannotOpen p)
    | some lines => .ok (lines, { w with opened := p :: w.opened })

/-! ## Region HEADER LINES -/

/-- The loop of `headerLines`: `a` is the counter, the list is what is left of
the line stream.  The result is the counter when the loop is left. -/
def headerLoop (a : Nat) : List Str → Nat
  | [] => a
  | line :: rest => if isComment line then headerLoop (a + 1) rest else a

/-- The function `headerLines(pth)`. -/
def headerLines (w : World) (pth : Option Str) : Except JsError (Nat × World) :=
  match openLines w pth with
  | .error e => .error e
  | .ok (lines, w1) => .ok (headerLoop 0 lines + 1, w1)

/-! ## Region CONVERT TO TSV -/

/-- The loop of `convertToTsv`: `ws` is what has been written to the write
stream so far, the list is what is left of the line stream. -/
def convertLoop (ws : Str) : List Str → Str
  | [] => ws
  | line :: rest =>
    if isComment line then convertLoop ws rest
    else convertLoop (ws ++ (replaceWs line ++ ['\n'])) rest

/-- The function `convertToTsv(inp, out)`. -/
def convertToTsv (w : World) (inp out : Option Str) : Except JsError World :=
  match openLines w inp with
  | .error e => .error e
  | .ok (lines, w1) =>
    match out with
    | none => .error .invalidArgType
    | some o => .ok { w1 with written := (o, convertLoop [] lines) :: w1.written }

/-! ## Region MAIN -/

/-- The text a template literal renders for an argument that may be missing. -/
def render (arg : Option Str) : Str :=
  match arg with
  | none => "undefined".toList
  | some s => s

/-- The function `main(cmd, inp, out)`; a missing argument is `none`. -/
def main (cmd inp out : Option Str) (w : World) : Except JsError World :=
  if cmd = some "header-lines".toList then
    match headerLines w inp with
    | .error e => .error e
    | .ok (lines, w1) => .ok { w1 with stdout := w1.stdout ++ (Nat.toDigits 10 lines ++ ['\n']) }
  else if cmd = some "convert-to-tsv".toList then
    convertToTsv w inp out
  else
    .ok { w with stderr := w.stderr ++ ("error: \"".toList ++ render cmd ++ "\"?\n".toList) }

/-! ## The conversion as the specification words it -/

/-- The maximal runs of a line: neighbouring characters belong to the same run
when both are white space or neither is. -/
def runs (line : Str) : List Str :=
  line.splitBy (fun a b => isSpace a == isSpace b)

/-- A run of white space becomes a single tab, any other run is kept. -/
def collapseRun (run : Str) : Str :=
  if run.all isSpace then ['\t'] else run

/-- The line with every maximal run of one or more white-space characters
replaced by a single tab. -/
def collapseRuns (line : Str) : Str :=
  ((runs line).map collapseRun).flatten

/-- One output line, ended by one line terminator, for each input line that
does not start with `%`, in the order of the input. -/
def tsvText (lines : List Str) : Str :=
  ((lines.filter (fun line => !isComment line)).map (fun line => collapseRuns line ++ ['\n'])).flatten

/-! ## Lines and fields -/

/-- The lines of a text when it is split at each terminator, a lone LF or a
CR LF pair, matched left to right (`s.split(/\r?\n/)`). -/
def splitEol : Str → List Str
  | [] => [[]]
  | [c] => if c = '\n' then [[], []] else [[c]]
  | c :: d :: ds =>
    if c = '\n' then [] :: splitEol (d :: ds)
    else if c = '\r' ∧ d = '\n' then [] :: splitEol ds
    else (splitEol (d :: ds)).modifyHead (c :: ·)

/-- The lines `convertToTsv` hands to `ws.write`, in order and without their
terminator; `out` holds those written so far. -/
def emitLoop (out : List Str) : List Str → List Str
  | [] => out
  | line :: rest =>
    if isComment line then emitLoop out rest
    else emitLoop (out ++ [replaceWs line]) rest

/-- The fields of a line when it is split at each maximal run of white space;
the flag tells whether the scanner is inside such a run. -/
def splitWsFrom (inRun : Bool) : Str → List Str
  | [] => [[]]
  | c :: cs =>
    if isSpace c then
      if inRun then splitWsFrom true cs else [] :: splitWsFrom true cs
    else (splitWsFrom false cs).modifyHead (c :: ·)

/-- The fields of a line: its runs, split at the runs of white space; white
space at the start or the end gives an empty first or last field. -/
def fields (line : Str) : List Str :=
  ((runs line).splitOnP (fun run => run.all isSpace)).map List.flatten

/-! ## Worlds used in the examples -/

/-- A world with a single readable file `in.mtx` holding the given lines. -/
def oneFile (lines : List Str) : World where
  files := fun p => if p = "in.mtx".toList then some lines else none
  opened := []
  written := []
  stdout := []
  stderr := []

/-! ## Line-ending normalization -/

theorem str_two_step {motive : Str → Prop} (h0 : motive []) (h1 : ∀ c, motive [c])
    (h2 : ∀ c d ds, motive ds → motive (d :: ds) → motive (c :: d :: ds)) :
    ∀ s, motive s := by
  have key : ∀ s, motive s ∧ ∀ c, motive (c :: s) := by
    intro s
    induction s with
    | nil => exact ⟨h0, h1⟩
    | cons d ds ih => exact ⟨ih.2 d, fun c => h2 c d ds ih.1 (ih.2 d)⟩
  exact fun s => (key s).1

theorem readFile_cons_lf (s : Str) : readFile ('\n' :: s) = '\n' :: readFile s := by
  cases s <;> simp [readFile, replaceEol]

theorem readFile_cr_lf (s : Str) : readFile ('\r' :: '\n' :: s) = '\n' :: readFile s := by
  simp [readFile, replaceEol]

theorem readFile_cons_other (c : Char) (s : Str) (hc : c ≠ '\n')
    (hcr : ¬ (c = '\r' ∧ ['\n'] <+: s)) : readFile (c :: s) = c :: readFile s := by
  cases s with
  | nil => simp [readFile, replaceEol, hc]
  | cons d ds =>
    have h : ¬ (c = '\r' ∧ d = '\n') := by
      rintro ⟨h1, h2⟩
      exact hcr ⟨h1, by rw [h2, List.cons_prefix_cons]; exact ⟨rfl, List.nil_prefix⟩⟩
    simp [readFile, replaceEol, hc, h]

theorem readFile_head_lf (s : Str) (h : ['\n'] <+: readFile s) :
    ['\n'] <+: s ∨ ['\r', '\n'] <+: s := by
  cases s with
  | nil => simp [readFile, replaceEol] at h
  | cons c s =>
    by_cases hc : c = '\n'
    · left
      rw [hc, List.cons_prefix_cons]
      exact ⟨rfl, List.nil_prefix⟩
    · by_cases hcr : c = '\r' ∧ ['\n'] <+: s
      · right
        rw [List.cons_prefix_cons]
        exact ⟨hcr.1.symm, hcr.2⟩
      · rw [readFile_cons_other c s hc hcr, List.cons_prefix_cons] at h
        exact absurd h.1.symm hc

theorem readFile_fixed (t : Str) (h : ¬ (['\r', '\n'] <:+: t)) : readFile t = t := by
  induction t with
  | nil => rfl
  | cons c t ih =>
    rw [List.infix_cons_iff, not_or] at h
    have iht := ih h.2
    by_cases hc : c = '\n'
    · rw [hc, readFile_cons_lf, iht]
    · have hcr : ¬ (c = '\r' ∧ ['\n'] <+: t) := by
        rintro ⟨h1, h2⟩
        exact h.1 (by rw [List.cons_prefix_cons]; exact ⟨h1.symm, h2⟩)
      rw [readFile_cons_other c t hc hcr, iht]

theorem readFile_no_cr_lf (s : Str) :
    ¬ (['\r', '\r', '\n'] <:+: s) → ¬ (['\r', '\n'] <:+: readFile s) := by
  refine str_two_step (motive := fun s =>
    ¬ (['\r', '\r', '\n'] <:+: s) → ¬ (['\r', '\n'] <:+: readFile s)) ?_ ?_ ?_ s
  · intro _
    simp [readFile, replaceEol]
  · intro c _
    by_cases hc : c = '\n'
    · rw [hc]; decide
    · rw [readFile_cons_other c [] hc (by simp)]
      simp [readFile, replaceEol, List.infix_cons_iff]
  · intro c d ds ih2 ih1 h
    rw [List.infix_cons_iff, not_or] at h
    have h1 := ih1 h.2
    by_cases hc : c = '\n'
    · rw [hc, readFile_cons_lf, List.infix_cons_iff, List.cons_prefix_cons]
      rintro (⟨hne, _⟩ | hin)
      · cases hne
      · exact h1 hin
    · by_cases hcr : c = '\r' ∧ ['\n'] <+: d :: ds
      · obtain ⟨hcr1, hcr2⟩ := hcr
        rw [List.cons_prefix_cons] at hcr2
        have hds : ¬ (['\r', '\r', '\n'] <:+: ds) := by
          have := h.2
          rw [List.infix_cons_iff, not_or] at this
          exact this.2
        rw [hcr1, ← hcr2.1, readFile_cr_lf, List.infix_cons_iff, List.cons_prefix_cons]
        rintro (⟨hne, _⟩ | hin)
        · cases hne
        · exact ih2 hds hin
      · rw [readFile_cons_other c (d :: ds) hc hcr, List.infix_cons_iff, List.cons_prefix_cons]
        rintro (⟨hcc, hlf⟩ | hin)
        · rcases readFile_head_lf (d :: ds) hlf with hp | hp
          · exact hcr ⟨hcc.symm, hp⟩
          · exact h.1 (by rw [List.cons_prefix_cons]; exact ⟨hcc, hp⟩)
        · exact h1 hin

theorem readFile_length_le (s : Str) : (readFile s).length ≤ s.length := by
  refine str_two_step (motive := fun s => (readFile s).length ≤ s.length) ?_ ?_ ?_ s
  · simp [readFile, replaceEol]
  · intro c
    by_cases hc : c = '\n' <;> simp [readFile, replaceEol, hc]
  · intro c d ds ih2 ih1
    by_cases hc : c = '\n'
    · rw [hc, readFile_cons_lf]
      simp only [List.length_cons] at ih1 ⊢
      omega
    · by_cases hcr : c = '\r' ∧ ['\n'] <+: d :: ds
      · obtain ⟨hcr1, hcr2⟩ := hcr
        rw [List.cons_prefix_cons] at hcr2
        rw [hcr1, ← hcr2.1, readFile_cr_lf]
        simp only [List.length_cons]
        omega
      · rw [readFile_cons_other c (d :: ds) hc hcr]
        simp only [List.length_cons] at ih1 ⊢
        omega

theorem readFile_length_lt (t : Str) (h : ['\r', '\n'] <:+: t) :
    (readFile t).length < t.length := by
  induction t with
  | nil => simp at h
  | cons c t ih =>
    rw [List.infix_cons_iff, List.cons_prefix_cons] at h
    by_cases hc : c = '\n'
    · rcases h with ⟨hne, _⟩ | hin
      · rw [hc] at hne
        cases hne
      · have := ih hin
        rw [hc, readFile_cons_lf]
        simp only [List.length_cons]
        omega
    · by_cases hcr : c = '\r' ∧ ['\n'] <+: t
      · obtain ⟨hcr1, hcr2⟩ := hcr
        cases t with
        | nil => simp at hcr2
        | cons d ds =>
          rw [List.cons_prefix_cons] at hcr2
          have := readFile_length_le ds
          rw [hcr1, ← hcr2.1, readFile_cr_lf]
          simp only [List.length_cons]
          omega
      · rcases h with ⟨hcc, hp⟩ | hin
        · exact absurd ⟨hcc.symm, hp⟩ hcr
        · have := ih hin
          rw [readFile_cons_other c t hc hcr]
          simp only [List.length_cons]
          omega

theorem readFile_keeps_cr_lf (s : Str) :
    ['\r', '\r', '\n'] <:+: s → ['\r', '\n'] <:+: readFile s := by
  refine str_two_step (motive := fun s =>
    ['\r', '\r', '\n'] <:+: s → ['\r', '\n'] <:+: readFile s) ?_ ?_ ?_ s
  · intro h
    simp at h
  · intro c h
    simp [List.infix_cons_iff] at h
  · intro c d ds ih2 ih1 h
    rw [List.infix_cons_iff, List.cons_prefix_cons] at h
    by_cases hc : c = '\n'
    · rcases h with ⟨hne, _⟩ | hin
      · rw [hc] at hne
        cases hne
      · rw [hc, readFile_cons_lf, List.infix_cons_iff]
        exact Or.inr (ih1 hin)
    · by_cases hcr : c = '\r' ∧ ['\n'] <+: d :: ds
      · obtain ⟨hcr1, hcr2⟩ := hcr
        rw [List.cons_prefix_cons] at hcr2
        rcases h with ⟨_, hp⟩ | hin
        · rw [List.cons_prefix_cons, ← hcr2.1] at hp
          cases hp.1
        · rw [List.infix_cons_iff, List.cons_prefix_cons, ← hcr2.1] at hin
          rcases hin with ⟨hne, _⟩ | hin
          · cases hne
          · rw [hcr1, ← hcr2.1, readFile_cr_lf, List.infix_cons_iff]
            exact Or.inr (ih2 hin)
      · rw [readFile_cons_other c (d :: ds) hc hcr, List.infix_cons_iff]
        rcases h with ⟨hcc, hp⟩ | hin
        · left
          rw [List.cons_prefix_cons] at hp ⊢
          obtain ⟨hd, hp2⟩ := hp
          refine ⟨hcc, ?_⟩
          cases ds with
          | nil => simp at hp2
          | cons e es =>
            rw [List.cons_prefix_cons] at hp2
            rw [← hd, ← hp2.1, readFile_cr_lf, List.cons_prefix_cons]
            exact ⟨rfl, List.nil_prefix⟩
        · exact Or.inr (ih1 hin)

/-- The texts on which a second normalization changes nothing are exactly those
without a CR immediately followed by CR LF. -/
theorem readFile_idempotent_iff (s : Str) :
    readFile (readFile s) = readFile s ↔ ¬ (['\r', '\r', '\n'] <:+: s) := by
  constructor
  · intro h hin
    have := readFile_length_lt (readFile s) (readFile_keeps_cr_lf s hin)
    rw [h] at this
    omega
  · intro h
    exact readFile_fixed (readFile s) (readFile_no_cr_lf s h)

theorem replaceEol_cons_lf (eol s : Str) :
    replaceEol eol ('\n' :: s) = eol ++ replaceEol eol s := by
  cases s <;> simp [replaceEol]

theorem replaceEol_cons_other (eol : Str) (c : Char) (s : Str) (hc : c ≠ '\n')
    (hcr : ¬ (c = '\r' ∧ ['\n'] <+: s)) : replaceEol eol (c :: s) = c :: replaceEol eol s := by
  cases s with
  | nil => simp [replaceEol, hc]
  | cons d ds =>
    have h : ¬ (c = '\r' ∧ d = '\n') := by
      rintro ⟨h1, h2⟩
      exact hcr ⟨h1, by rw [h2, List.cons_prefix_cons]; exact ⟨rfl, List.nil_prefix⟩⟩
    simp [replaceEol, hc, h]

theorem writeFile_crlf_head (d : Str) : ¬ (['\n'] <+: writeFile ['\r', '\n'] d) := by
  unfold writeFile
  cases d with
  | nil => simp [replaceEol]
  | cons c d =>
    by_cases hc : c = '\n'
    · rw [hc, replaceEol_cons_lf]
      simp
    · by_cases hcr : c = '\r' ∧ ['\n'] <+: d
      · obtain ⟨hcr1, hcr2⟩ := hcr
        cases d with
        | nil => simp at hcr2
        | cons e es =>
          rw [List.cons_prefix_cons] at hcr2
          rw [hcr1, ← hcr2.1]
          simp [replaceEol]
      · rw [replaceEol_cons_other _ c d hc hcr, List.cons_prefix_cons]
        rintro ⟨h, _⟩
        exact hc h.symm

theorem readFile_writeFile_crlf (d : Str) (hd : ¬ (['\r', '\n'] <:+: d)) :
    readFile (writeFile ['\r', '\n'] d) = d := by
  induction d with
  | nil => rfl
  | cons c d ih =>
    rw [List.infix_cons_iff, not_or] at hd
    have ihd := ih hd.2
    by_cases hc : c = '\n'
    · have h : writeFile ['\r', '\n'] (c :: d) = '\r' :: '\n' :: writeFile ['\r', '\n'] d := by
        unfold writeFile
        rw [hc, replaceEol_cons_lf]
        rfl
      rw [h, readFile_cr_lf, ihd, hc]
    · have hcr : ¬ (c = '\r' ∧ ['\n'] <+: d) := by
        rintro ⟨h1, h2⟩
        exact hd.1 (by rw [List.cons_prefix_cons]; exact ⟨h1.symm, h2⟩)
      have h : writeFile ['\r', '\n'] (c :: d) = c :: writeFile ['\r', '\n'] d := by
        unfold writeFile
        exact replaceEol_cons_other _ c d hc hcr
      rw [h, readFile_cons_other c _ hc (fun hh => writeFile_crlf_head d hh.2), ihd]

theorem splitOn_lf_cons (s : Str) :
    ('\n' :: s).splitOn '\n' = [] :: s.splitOn '\n' := by
  simp [List.splitOn]

theorem splitOn_other_cons (c : Char) (s : Str) (hc : c ≠ '\n') :
    (c :: s).splitOn '\n' = (s.splitOn '\n').modifyHead (c :: ·) := by
  simp [List.splitOn, hc]

/-- C11: normalization leaves the lines as they are: splitting the text
`readFile` produces at each LF gives the same lines as splitting the original
text at each terminator (a lone LF or a CR LF pair, matched left to right). -/
theorem readFile_preserves_lines (s : Str) : (readFile s).splitOn '\n' = splitEol s := by
  refine str_two_step (motive := fun s => (readFile s).splitOn '\n' = splitEol s) ?_ ?_ ?_ s
  · rfl
  · intro c
    by_cases hc : c = '\n'
    · rw [hc]; rfl
    · rw [readFile_cons_other c [] hc (by simp), splitOn_other_cons c _ hc]
      simp [splitEol, hc, readFile, replaceEol]
  · intro c d ds ih2 ih1
    by_cases hc : c = '\n'
    · rw [hc, readFile_cons_lf, splitOn_lf_cons, ih1]
      simp [splitEol]
    · by_cases hcr : c = '\r' ∧ d = '\n'
      · rw [hcr.1, hcr.2, readFile_cr_lf, splitOn_lf_cons, ih2]
        simp [splitEol]
      · have hcr2 : ¬ (c = '\r' ∧ ['\n'] <+: d :: ds) := by
          rintro ⟨h1, h2⟩
          rw [List.cons_prefix_cons] at h2
          exact hcr ⟨h1, h2.1.symm⟩
        rw [readFile_cons_other c (d :: ds) hc hcr2, splitOn_other_cons c _ hc, ih1]
        simp [splitEol, hc, hcr]

/-- C15: on a host whose terminator is LF or CR LF, for a text in which no LF
is immediately preceded by CR, reading back what `writeFile` wrote returns the
text unchanged. -/
theorem readFile_writeFile (eol d : Str) (heol : eol = ['\n'] ∨ eol = ['\r', '\n'])
    (hd : ¬ (['\r', '\n'] <:+: d)) : readFile (writeFile eol d) = d := by
  rcases heol with h | h
  · rw [h]
    have hw : writeFile ['\n'] d = d := readFile_fixed d hd
    rw [hw]
    exact readFile_fixed d hd
  · rw [h]
    exact readFile_writeFile_crlf d hd

theorem readFile_writeFile_witness :
    ("\r\n".toList = ['\n'] ∨ "\r\n".toList = ['\r', '\n']) ∧
    ¬ (['\r', '\n'] <:+: "1\t2\n\r3\n\n".toList) ∧
    writeFile "\r\n".toList "1\t2\n\r3\n\n".toList = "1\t2\r\n\r3\r\n\r\n".toList ∧
    readFile (writeFile "\r\n".toList "1\t2\n\r3\n\n".toList) = "1\t2\n\r3\n\n".toList :=
  ⟨by decide, by decide, by decide,
    readFile_writeFile "\r\n".toList "1\t2\n\r3\n\n".toList (by decide) (by decide)⟩

/-- C5 (as stated, refuted): on the text CR CR LF the normalization of
`readFile` gives CR LF, and normalizing that again gives LF. -/
theorem readFile_not_idempotent :
    readFile "\r\r\n".toList = "\r\n".toList ∧
    readFile (readFile "\r\r\n".toList) = "\n".toList ∧
    readFile (readFile "\r\r\n".toList) ≠ readFile "\r\r\n".toList := by
  decide

/-- C5 (amended): on every text in which no CR is immediately followed by
CR LF, normalizing the normalized text gives the same text as normalizing
once. -/
theorem readFile_idempotent (s : Str) (h : ¬ (['\r', '\r', '\n'] <:+: s)) :
    readFile (readFile s) = readFile s :=
  readFile_fixed (readFile s) (readFile_no_cr_lf s h)

theorem readFile_idempotent_witness :
    ¬ (['\r', '\r', '\n'] <:+: "a\r\nb\n\rc\r".toList) ∧
    readFile (readFile "a\r\nb\n\rc\r".toList) = readFile "a\r\nb\n\rc\r".toList :=
  ⟨by decide, readFile_idempotent "a\r\nb\n\rc\r".toList (by decide)⟩

/-! ## Header counter -/

theorem headerLoop_comments (a : Nat) (cs : List Str)
    (hcs : ∀ c ∈ cs, isComment c = true) : headerLoop a cs = a + cs.length := by
  induction cs generalizing a with
  | nil => rfl
  | cons c cs ih =>
    have hc : isComment c = true := hcs c (List.mem_cons_self c cs)
    have hrest : ∀ x ∈ cs, isComment x = true := fun x hx => hcs x (List.mem_cons_of_mem c hx)
    simp only [headerLoop, hc, if_true, ih (a + 1) hrest, List.length_cons]
    omega

theorem headerLoop_stops (a : Nat) (cs : List Str) (d : Str) (rest : List Str)
    (hcs : ∀ c ∈ cs, isComment c = true) (hd : isComment d = false) :
    headerLoop a (cs ++ d :: rest) = a + cs.length := by
  induction cs generalizing a with
  | nil => simp [headerLoop, hd]
  | cons c cs ih =>
    have hc : isComment c = true := hcs c (List.mem_cons_self c cs)
    have hrest : ∀ x ∈ cs, isComment x = true := fun x hx => hcs x (List.mem_cons_of_mem c hx)
    show headerLoop a (c :: (cs ++ d :: rest)) = a + (c :: cs).length
    rw [headerLoop, if_pos hc, ih (a + 1) hrest, List.length_cons]
    omega

theorem headerLines_of_lines (w : World) (p : Str) (lines : List Str)
    (hfile : w.files p = some lines) :
    headerLines w (some p) = .ok (headerLoop 0 lines + 1, { w with opened := p :: w.opened }) := by
  simp [headerLines, openLines, hfile]

/-- C1: on a file made of `h` lines starting with `%`, then a line that does not
start with `%`, then any further lines, `headerLines` returns `h + 1`, whatever
the further lines are. -/
theorem headerLines_comments_then_dimensions (w : World) (p : Str) (cs : List Str) (d : Str)
    (rest : List Str) (hfile : w.files p = some (cs ++ d :: rest))
    (hcs : ∀ c ∈ cs, isComment c = true) (hd : isComment d = false) :
    headerLines w (some p) = .ok (cs.length + 1, { w with opened := p :: w.opened }) := by
  rw [headerLines_of_lines w p _ hfile, headerLoop_stops 0 cs d rest hcs hd]
  simp

theorem headerLines_comments_then_dimensions_witness :
    (oneFile (["%comment".toList, "%comment2".toList] ++ "3 3 5".toList :: ["1 1 1.0".toList])).files
        "in.mtx".toList
      = some (["%comment".toList, "%comment2".toList] ++ "3 3 5".toList :: ["1 1 1.0".toList]) ∧
    (∀ c ∈ ["%comment".toList, "%comment2".toList], isComment c = true) ∧
    isComment "3 3 5".toList = false ∧
    headerLines
        (oneFile (["%comment".toList, "%comment2".toList] ++ "3 3 5".toList :: ["1 1 1.0".toList]))
        (some "in.mtx".toList)
      = .ok (2 + 1,
          { oneFile (["%comment".toList, "%comment2".toList] ++ "3 3 5".toList :: ["1 1 1.0".toList])
            with opened := ["in.mtx".toList] }) :=
  ⟨by decide, by decide, by decide,
    headerLines_comments_then_dimensions _ "in.mtx".toList
      ["%comment".toList, "%comment2".toList] "3 3 5".toList ["1 1 1.0".toList]
      (by decide) (by decide) (by decide)⟩

/-- C8 (as stated, refuted): on the empty line stream `headerLines` raises no
error; it returns the count `1`. -/
theorem headerLines_empty_returns :
    (oneFile []).files "in.mtx".toList = some [] ∧
    (∀ e, headerLines (oneFile []) (some "in.mtx".toList) ≠ .error e) ∧
    headerLines (oneFile []) (some "in.mtx".toList)
      = .ok (1, { oneFile [] with opened := ["in.mtx".toList] }) := by
  have h : headerLines (oneFile []) (some "in.mtx".toList)
      = .ok (1, { oneFile [] with opened := ["in.mtx".toList] }) := by
    simp [headerLines, openLines, oneFile, headerLoop]
  refine ⟨by decide, ?_, h⟩
  intro e he
  rw [h] at he
  cases he

/-- C8 (amended): on a readable file whose line stream is empty, `headerLines`
raises no error and returns `1`. -/
theorem headerLines_empty (w : World) (p : Str) (hfile : w.files p = some []) :
    headerLines w (some p) = .ok (1, { w with opened := p :: w.opened }) := by
  rw [headerLines_of_lines w p _ hfile]
  rfl

theorem headerLines_empty_witness :
    (oneFile []).files "data.mtx".toList = none ∧
    (oneFile []).files "in.mtx".toList = some [] ∧
    headerLines (oneFile []) (some "in.mtx".toList)
      = .ok (1, { oneFile [] with opened := "in.mtx".toList :: (oneFile []).opened }) :=
  ⟨by decide, by decide, headerLines_empty (oneFile []) "in.mtx".toList (by decide)⟩

/-- C9: on a file of `n ≥ 1` lines that all start with `%`, `headerLines`
returns `n + 1`, one more than the number of lines of the file. -/
theorem headerLines_all_comments (w : World) (p : Str) (lines : List Str)
    (hfile : w.files p = some lines) (hn : 1 ≤ lines.length)
    (hall : ∀ c ∈ lines, isComment c = true) :
    headerLines w (some p) = .ok (lines.length + 1, { w with opened := p :: w.opened }) := by
  have _ := hn
  rw [headerLines_of_lines w p _ hfile, headerLoop_comments 0 lines hall]
  simp

theorem headerLines_all_comments_witness :
    (oneFile ["%a".toList, "%".toList, "% b".toList]).files "in.mtx".toList
      = some ["%a".toList, "%".toList, "% b".toList] ∧
    1 ≤ ["%a".toList, "%".toList, "% b".toList].length ∧
    (∀ c ∈ ["%a".toList, "%".toList, "% b".toList], isComment c = true) ∧
    headerLines (oneFile ["%a".toList, "%".toList, "% b".toList]) (some "in.mtx".toList)
      = .ok (["%a".toList, "%".toList, "% b".toList].length + 1,
          { oneFile ["%a".toList, "%".toList, "% b".toList]
            with opened := "in.mtx".toList :: (oneFile ["%a".toList, "%".toList, "% b".toList]).opened }) :=
  ⟨by decide, by decide, by decide,
    headerLines_all_comments _ "in.mtx".toList ["%a".toList, "%".toList, "% b".toList]
      (by decide) (by decide) (by decide)⟩

/-! ## White-space rewriting -/

theorem splitBy_loop_acc (R : Char → Char → Bool) (l : Str) (a : Char) (g : Str)
    (gs : List Str) :
    List.splitBy.loop R l a g gs = gs.reverse ++ List.splitBy.loop R l a g [] := by
  induction l generalizing a g gs with
  | nil => simp [List.splitBy.loop]
  | cons b l ih =>
    cases hR : R a b with
    | true => simp only [List.splitBy.loop, hR]; exact ih b (a :: g) gs
    | false =>
      simp only [List.splitBy.loop, hR]
      rw [ih b [] ((a :: g).reverse :: gs), ih b [] [(a :: g).reverse]]
      simp

theorem collapseRun_space (a : Char) (g : Str) (ha : isSpace a = true)
    (hg : ∀ x ∈ g, isSpace x = isSpace a) : collapseRun (g.reverse ++ [a]) = ['\t'] := by
  have hall : (g.reverse ++ [a]).all isSpace = true := by
    rw [List.all_eq_true]
    intro x hx
    rcases List.mem_append.mp hx with hx | hx
    · rw [hg x (List.mem_reverse.mp hx)]; exact ha
    · rw [List.mem_singleton.mp hx]; exact ha
  unfold collapseRun
  rw [if_pos hall]

theorem collapseRun_other (a : Char) (g : Str) (ha : isSpace a = false) :
    collapseRun (g.reverse ++ [a]) = g.reverse ++ [a] := by
  have hall : ¬ ((g.reverse ++ [a]).all isSpace = true) := by
    rw [List.all_eq_true]
    intro h
    have := h a (by simp)
    rw [ha] at this
    cases this
  unfold collapseRun
  rw [if_neg hall]

theorem collapse_loop (l : Str) (a : Char) (g : Str)
    (hg : ∀ x ∈ g, isSpace x = isSpace a) :
    ((List.splitBy.loop (fun a b => isSpace a == isSpace b) l a g []).map collapseRun).flatten
      = if isSpace a then '\t' :: replaceWsFrom true l
        else g.reverse ++ a :: replaceWsFrom false l := by
  induction l generalizing a g with
  | nil =>
    cases ha : isSpace a with
    | true => simp [List.splitBy.loop, collapseRun_space a g ha hg, replaceWsFrom]
    | false => simp [List.splitBy.loop, collapseRun_other a g ha, replaceWsFrom]
  | cons b l ih =>
    by_cases hab : isSpace a = isSpace b
    · have hR : (isSpace a == isSpace b) = true := by rw [hab]; exact beq_self_eq_true _
      have hg1 : ∀ x ∈ a :: g, isSpace x = isSpace b := by
        intro x hx
        rcases List.mem_cons.mp hx with rfl | hx
        · exact hab
        · rw [hg x hx, hab]
      have h := ih b (a :: g) hg1
      simp only [List.splitBy.loop, hR]
      rw [h, hab]
      cases hb : isSpace b <;> simp [replaceWsFrom, hb]
    · have hR : (isSpace a == isSpace b) = false := by
        cases ha : isSpace a <;> cases hb : isSpace b <;> simp_all
      have h := ih b [] (by simp)
      simp only [List.splitBy.loop, hR]
      rw [splitBy_loop_acc, List.map_append, List.flatten_append, h]
      cases ha : isSpace a with
      | true =>
        have hb : isSpace b = false := by
          cases hb : isSpace b
          · rfl
          · exact absurd (ha.trans hb.symm) hab
        simp [collapseRun_space a g ha hg, replaceWsFrom, hb]
      | false =>
        have hb : isSpace b = true := by
          cases hb : isSpace b
          · exact absurd (ha.trans hb.symm) hab
          · rfl
        simp [collapseRun_other a g ha, replaceWsFrom, hb]

/-- The scanner computes what the specification words: every maximal run of
white space replaced by one tab. -/
theorem replaceWs_eq_collapseRuns (line : Str) : replaceWs line = collapseRuns line := by
  cases line with
  | nil => rfl
  | cons a l =>
    have h := collapse_loop l a [] (by simp)
    unfold collapseRuns runs
    rw [List.splitBy, h]
    cases ha : isSpace a <;> simp [replaceWs, replaceWsFrom, ha]

theorem isSpace_tab : isSpace '\t' = true := by decide

theorem mem_replaceWsFrom (inMatch : Bool) (l : Str) (c : Char)
    (hc : c ∈ replaceWsFrom inMatch l) (hs : isSpace c = true) : c = '\t' := by
  induction l generalizing inMatch with
  | nil => simp [replaceWsFrom] at hc
  | cons a l ih =>
    cases ha : isSpace a with
    | true =>
      cases inMatch with
      | true =>
        simp only [replaceWsFrom, ha, if_true] at hc
        exact ih true hc
      | false =>
        simp only [replaceWsFrom, ha, if_true, Bool.false_eq_true, if_false] at hc
        rcases List.mem_cons.mp hc with h | h
        · exact h
        · exact ih true h
    | false =>
      simp only [replaceWsFrom, ha, Bool.false_eq_true, if_false] at hc
      rcases List.mem_cons.mp hc with h | h
      · rw [h, ha] at hs
        cases hs
      · exact ih false h

theorem replaceWsFrom_no_double_tab (l : Str) :
    ¬ (['\t', '\t'] <:+: replaceWsFrom true l) ∧
    ¬ (['\t', '\t'] <:+: replaceWsFrom false l) ∧
    ¬ (['\t'] <+: replaceWsFrom true l) := by
  induction l with
  | nil => simp [replaceWsFrom]
  | cons a l ih =>
    obtain ⟨ih1, ih2, ih3⟩ := ih
    cases ha : isSpace a with
    | true =>
      simp only [replaceWsFrom, ha, if_true, Bool.false_eq_true, if_false]
      refine ⟨ih1, ?_, ih3⟩
      rw [List.infix_cons_iff, List.cons_prefix_cons]
      rintro (⟨_, h⟩ | h)
      · exact ih3 h
      · exact ih1 h
    | false =>
      have hne : ¬ ('\t' = a) := by
        intro h
        rw [← h, isSpace_tab] at ha
        cases ha
      simp only [replaceWsFrom, ha, Bool.false_eq_true, if_false]
      refine ⟨?_, ?_, ?_⟩
      · rw [List.infix_cons_iff, List.cons_prefix_cons]
        rintro (⟨h, _⟩ | h)
        · exact hne h
        · exact ih2 h
      · rw [List.infix_cons_iff, List.cons_prefix_cons]
        rintro (⟨h, _⟩ | h)
        · exact hne h
        · exact ih2 h
      · rw [List.cons_prefix_cons]
        rintro ⟨h, _⟩
        exact hne h

/-- C6: in the rewritten form of a line that does not start with `%`, the only
white-space character is the tab, and no two tabs are adjacent. -/
theorem replaceWs_single_tabs (line : Str) (hline : isComment line = false) :
    (∀ c ∈ replaceWs line, isSpace c = true → c = '\t') ∧
    ¬ (['\t', '\t'] <:+: replaceWs line) := by
  have _ := hline
  exact ⟨fun c hc hs => mem_replaceWsFrom false line c hc hs,
    (replaceWsFrom_no_double_tab line).2.1⟩

theorem replaceWs_single_tabs_witness :
    isComment "1  2 \t 3.5".toList = false ∧
    (∀ c ∈ replaceWs "1  2 \t 3.5".toList, isSpace c = true → c = '\t') ∧
    ¬ (['\t', '\t'] <:+: replaceWs "1  2 \t 3.5".toList) :=
  ⟨by decide, replaceWs_single_tabs "1  2 \t 3.5".toList (by decide)⟩

theorem replaceWsFrom_fixed (l : Str) :
    replaceWsFrom false (replaceWsFrom true l) = replaceWsFrom true l ∧
    replaceWsFrom false (replaceWsFrom false l) = replaceWsFrom false l ∧
    replaceWsFrom true (replaceWsFrom true l) = replaceWsFrom true l := by
  induction l with
  | nil => simp [replaceWsFrom]
  | cons c cs ih =>
    obtain ⟨ih1, ih2, ih3⟩ := ih
    cases hc : isSpace c with
    | true => simp [replaceWsFrom, hc, ih1, ih3, isSpace_tab]
    | false => simp [replaceWsFrom, hc, ih2]

theorem replaceWs_replaceWs (line : Str) : replaceWs (replaceWs line) = replaceWs line :=
  (replaceWsFrom_fixed line).2.1

theorem isComment_replaceWs (line : Str) (h : isComment line = false) :
    isComment (replaceWs line) = false := by
  cases line with
  | nil => rfl
  | cons c cs =>
    cases hc : isSpace c with
    | true => simp [replaceWs, replaceWsFrom, hc, isComment]
    | false => simpa [replaceWs, replaceWsFrom, hc, isComment] using h

theorem not_mem_replaceWs (line : Str) (c : Char) (hs : isSpace c = true) (hc : c ≠ '\t') :
    c ∉ replaceWs line :=
  fun hmem => hc (mem_replaceWsFrom false line c hmem hs)

theorem filter_replaceWsFrom (inMatch : Bool) (l : Str) :
    (replaceWsFrom inMatch l).filter (fun c => !isSpace c) = l.filter (fun c => !isSpace c) := by
  induction l generalizing inMatch with
  | nil => rfl
  | cons c cs ih =>
    cases hc : isSpace c with
    | true => cases inMatch <;> simp [replaceWsFrom, hc, ih, List.filter_cons, isSpace_tab]
    | false => simp [replaceWsFrom, hc, ih, List.filter_cons]

theorem splitOn_tab_cons (s : Str) : ('\t' :: s).splitOn '\t' = [] :: s.splitOn '\t' := by
  simp [List.splitOn]

theorem splitOn_tab_other (c : Char) (s : Str) (hc : c ≠ '\t') :
    (c :: s).splitOn '\t' = (s.splitOn '\t').modifyHead (c :: ·) := by
  simp [List.splitOn, hc]

theorem splitOn_replaceWsFrom (l : Str) :
    (replaceWsFrom true l).splitOn '\t' = splitWsFrom true l ∧
    (replaceWsFrom false l).splitOn '\t' = splitWsFrom false l := by
  induction l with
  | nil => simp [replaceWsFrom, splitWsFrom]
  | cons c cs ih =>
    obtain ⟨ih1, ih2⟩ := ih
    cases hc : isSpace c with
    | true => simp [replaceWsFrom, splitWsFrom, hc, ih1, splitOn_tab_cons]
    | false =>
      have hne : c ≠ '\t' := by
        intro h
        rw [h, isSpace_tab] at hc
        cases hc
      simp [replaceWsFrom, splitWsFrom, hc, ih2, splitOn_tab_other c _ hne]

theorem run_all_space (a : Char) (g : Str) (ha : isSpace a = true)
    (hg : ∀ x ∈ g, isSpace x = isSpace a) : (g.reverse ++ [a]).all isSpace = true := by
  rw [List.all_eq_true]
  intro x hx
  rcases List.mem_append.mp hx with hx | hx
  · rw [hg x (List.mem_reverse.mp hx)]; exact ha
  · rw [List.mem_singleton.mp hx]; exact ha

theorem run_all_other (a : Char) (g : Str) (ha : isSpace a = false) :
    (g.reverse ++ [a]).all isSpace = false := by
  rw [Bool.eq_false_iff]
  intro h
  rw [List.all_eq_true] at h
  have := h a (by simp)
  rw [ha] at this
  cases this

theorem map_flatten_modifyHead (r : Str) (X : List (List Str)) :
    (X.modifyHead (r :: ·)).map List.flatten
      = (X.map List.flatten).modifyHead (r ++ ·) := by
  cases X <;> simp

theorem fields_loop (l : Str) (a : Char) (g : Str)
    (hg : ∀ x ∈ g, isSpace x = isSpace a) :
    ((List.splitBy.loop (fun a b => isSpace a == isSpace b) l a g []).splitOnP
        (fun run => run.all isSpace)).map List.flatten
      = if isSpace a then [] :: splitWsFrom true l
        else (splitWsFrom false l).modifyHead ((g.reverse ++ [a]) ++ ·) := by
  induction l generalizing a g with
  | nil =>
    cases ha : isSpace a with
    | true => simp [List.splitBy.loop, run_all_space a g ha hg, splitWsFrom]
    | false => simp [List.splitBy.loop, run_all_other a g ha, splitWsFrom]
  | cons b l ih =>
    by_cases hab : isSpace a = isSpace b
    · have hR : (isSpace a == isSpace b) = true := by rw [hab]; exact beq_self_eq_true _
      have hg1 : ∀ x ∈ a :: g, isSpace x = isSpace b := by
        intro x hx
        rcases List.mem_cons.mp hx with rfl | hx
        · exact hab
        · rw [hg x hx, hab]
      have h := ih b (a :: g) hg1
      simp only [List.splitBy.loop, hR]
      rw [h, hab]
      cases hb : isSpace b with
      | true => simp [splitWsFrom, hb]
      | false =>
        simp only [splitWsFrom, hb, Bool.false_eq_true, if_false, List.modifyHead_modifyHead]
        congr 1
        funext x
        simp
    · have hR : (isSpace a == isSpace b) = false := by
        cases ha : isSpace a <;> cases hb : isSpace b <;> simp_all
      have h := ih b [] (by simp)
      simp only [List.splitBy.loop, hR]
      rw [splitBy_loop_acc]
      cases ha : isSpace a with
      | true =>
        have hb : isSpace b = false := by
          cases hb : isSpace b
          · rfl
          · exact absurd (ha.trans hb.symm) hab
        rw [hb] at h
        simp only [Bool.false_eq_true, if_false, List.reverse_nil, List.nil_append] at h
        simp [run_all_space a g ha hg, h, splitWsFrom, hb]
      | false =>
        have hb : isSpace b = true := by
          cases hb : isSpace b
          · exact absurd (ha.trans hb.symm) hab
          · rfl
        rw [hb] at h
        simp only [if_true] at h
        simp [run_all_other a g ha, map_flatten_modifyHead, h, splitWsFrom, hb]

/-- The scanner form of the field split computes the fields. -/
theorem fields_eq_splitWsFrom (line : Str) : fields line = splitWsFrom false line := by
  cases line with
  | nil => rfl
  | cons a l =>
    have h := fields_loop l a [] (by simp)
    unfold fields runs
    rw [List.splitBy, h]
    cases ha : isSpace a <;> simp [splitWsFrom, ha]

/-- C14: for a line that does not start with `%`, splitting the rewritten line
at each tab gives the fields of the input line, that is the line split at each
maximal run of white space; the characters that are not white space are the
same, in the same order. -/
theorem replaceWs_preserves_fields (line : Str) (hline : isComment line = false) :
    (replaceWs line).splitOn '\t' = fields line ∧
    (replaceWs line).filter (fun c => !isSpace c) = line.filter (fun c => !isSpace c) := by
  have _ := hline
  refine ⟨?_, filter_replaceWsFrom false line⟩
  rw [fields_eq_splitWsFrom]
  exact (splitOn_replaceWsFrom line).2

theorem replaceWs_preserves_fields_witness :
    isComment " 1  2\t \t3.5 ".toList = false ∧
    fields " 1  2\t \t3.5 ".toList = ["".toList, "1".toList, "2".toList, "3.5".toList, "".toList] ∧
    (replaceWs " 1  2\t \t3.5 ".toList).splitOn '\t' = fields " 1  2\t \t3.5 ".toList ∧
    (replaceWs " 1  2\t \t3.5 ".toList).filter (fun c => !isSpace c)
      = " 1  2\t \t3.5 ".toList.filter (fun c => !isSpace c) :=
  ⟨by decide, by decide, replaceWs_preserves_fields " 1  2\t \t3.5 ".toList (by decide)⟩

/-! ## Converter -/

theorem convertLoop_acc (ws : Str) (lines : List Str) :
    convertLoop ws lines = ws ++ convertLoop [] lines := by
  induction lines generalizing ws with
  | nil => simp [convertLoop]
  | cons l lines ih =>
    cases hl : isComment l with
    | true => simp only [convertLoop, hl, if_true]; exact ih ws
    | false =>
      simp only [convertLoop, hl, Bool.false_eq_true, if_false]
      rw [ih (ws ++ (replaceWs l ++ ['\n'])), ih ([] ++ (replaceWs l ++ ['\n']))]
      simp

theorem convertLoop_append (ws : Str) (xs ys : List Str) :
    convertLoop ws (xs ++ ys) = convertLoop (convertLoop ws xs) ys := by
  induction xs generalizing ws with
  | nil => rfl
  | cons l xs ih =>
    cases hl : isComment l with
    | true => simp only [List.cons_append, convertLoop, hl, if_true]; exact ih ws
    | false =>
      simp only [List.cons_append, convertLoop, hl, Bool.false_eq_true, if_false]
      exact ih _

theorem convertLoop_eq_tsvText (lines : List Str) : convertLoop [] lines = tsvText lines := by
  induction lines with
  | nil => rfl
  | cons l lines ih =>
    cases hl : isComment l with
    | true => simp [convertLoop, tsvText, hl, List.filter_cons] at ih ⊢; exact ih
    | false =>
      simp only [convertLoop, hl, Bool.false_eq_true, if_false]
      rw [convertLoop_acc, ih]
      simp [tsvText, List.filter_cons, hl, replaceWs_eq_collapseRuns]

theorem convertLoop_rows (rows : List Str) (hrows : ∀ r ∈ rows, isComment r = false) :
    convertLoop [] rows = (rows.map (fun r => replaceWs r ++ ['\n'])).flatten := by
  induction rows with
  | nil => rfl
  | cons r rows ih =>
    have hr : isComment r = false := hrows r (List.mem_cons_self r rows)
    have hrest : ∀ x ∈ rows, isComment x = false :=
      fun x hx => hrows x (List.mem_cons_of_mem r hx)
    simp only [convertLoop, hr, Bool.false_eq_true, if_false]
    rw [convertLoop_acc, ih hrest]
    simp

theorem convertLoop_comments (cs : List Str) (hcs : ∀ c ∈ cs, isComment c = true) :
    convertLoop [] cs = [] := by
  induction cs with
  | nil => rfl
  | cons c cs ih =>
    have hc : isComment c = true := hcs c (List.mem_cons_self c cs)
    simp only [convertLoop, hc, if_true]
    exact ih (fun x hx => hcs x (List.mem_cons_of_mem c hx))

theorem convertToTsv_of_lines (w : World) (p o : Str) (lines : List Str)
    (hfile : w.files p = some lines) :
    convertToTsv w (some p) (some o)
      = .ok { w with opened := p :: w.opened, written := (o, convertLoop [] lines) :: w.written } := by
  simp [convertToTsv, openLines, hfile]

/-- C2: `convertToTsv` writes, for each input line that does not start with
`%` and in the order of the input, that line with every maximal run of white
space replaced by one tab, followed by one line terminator, and nothing else. -/
theorem convertToTsv_writes_tsvText (w : World) (p o : Str) (lines : List Str)
    (hfile : w.files p = some lines) :
    convertToTsv w (some p) (some o)
      = .ok { w with opened := p :: w.opened, written := (o, tsvText lines) :: w.written } := by
  rw [convertToTsv_of_lines w p o lines hfile, convertLoop_eq_tsvText]

theorem convertToTsv_writes_tsvText_witness :
    (oneFile ["3 3 1".toList, "1 2 3".toList]).files "in.mtx".toList
      = some ["3 3 1".toList, "1 2 3".toList] ∧
    tsvText ["3 3 1".toList, "1 2 3".toList] = "3\t3\t1\n1\t2\t3\n".toList ∧
    convertToTsv (oneFile ["3 3 1".toList, "1 2 3".toList]) (some "in.mtx".toList)
        (some "out.tsv".toList)
      = .ok { oneFile ["3 3 1".toList, "1 2 3".toList] with
          opened := "in.mtx".toList :: (oneFile ["3 3 1".toList, "1 2 3".toList]).opened,
          written := ("out.tsv".toList, tsvText ["3 3 1".toList, "1 2 3".toList]) ::
            (oneFile ["3 3 1".toList, "1 2 3".toList]).written } :=
  ⟨by decide, by decide,
    convertToTsv_writes_tsvText (oneFile ["3 3 1".toList, "1 2 3".toList]) "in.mtx".toList
      "out.tsv".toList ["3 3 1".toList, "1 2 3".toList] (by decide)⟩

/-- C3: a line starting with `%` leaves no trace in the output wherever it
stands: the file with lines `xs ++ [c] ++ ys` and the file with lines
`xs ++ ys` are converted to the same text. -/
theorem convertToTsv_comment_dropped (w1 w2 : World) (p o : Str) (xs ys : List Str) (c : Str)
    (hc : isComment c = true) (h1 : w1.files p = some (xs ++ [c] ++ ys))
    (h2 : w2.files p = some (xs ++ ys)) :
    ∃ text,
      convertToTsv w1 (some p) (some o)
        = .ok { w1 with opened := p :: w1.opened, written := (o, text) :: w1.written } ∧
      convertToTsv w2 (some p) (some o)
        = .ok { w2 with opened := p :: w2.opened, written := (o, text) :: w2.written } := by
  refine ⟨convertLoop [] (xs ++ ys), ?_, convertToTsv_of_lines w2 p o _ h2⟩
  rw [convertToTsv_of_lines w1 p o _ h1]
  have h : convertLoop [] (xs ++ [c] ++ ys) = convertLoop [] (xs ++ ys) := by
    rw [List.append_assoc, convertLoop_append, convertLoop_append [] xs ys]
    show convertLoop (convertLoop [] xs) (c :: ys) = convertLoop (convertLoop [] xs) ys
    rw [convertLoop, if_pos hc]
  rw [h]

theorem convertToTsv_comment_dropped_witness :
    isComment "%x".toList = true ∧
    (oneFile (["1 2".toList] ++ ["%x".toList] ++ ["3 4".toList])).files "in.mtx".toList
      = some (["1 2".toList] ++ ["%x".toList] ++ ["3 4".toList]) ∧
    (oneFile (["1 2".toList] ++ ["3 4".toList])).files "in.mtx".toList
      = some (["1 2".toList] ++ ["3 4".toList]) ∧
    ∃ text,
      convertToTsv (oneFile (["1 2".toList] ++ ["%x".toList] ++ ["3 4".toList]))
          (some "in.mtx".toList) (some "out.tsv".toList)
        = .ok { oneFile (["1 2".toList] ++ ["%x".toList] ++ ["3 4".toList]) with
            opened := "in.mtx".toList ::
              (oneFile (["1 2".toList] ++ ["%x".toList] ++ ["3 4".toList])).opened,
            written := ("out.tsv".toList, text) ::
              (oneFile (["1 2".toList] ++ ["%x".toList] ++ ["3 4".toList])).written } ∧
      convertToTsv (oneFile (["1 2".toList] ++ ["3 4".toList]))
          (some "in.mtx".toList) (some "out.tsv".toList)
        = .ok { oneFile (["1 2".toList] ++ ["3 4".toList]) with
            opened := "in.mtx".toList :: (oneFile (["1 2".toList] ++ ["3 4".toList])).opened,
            written := ("out.tsv".toList, text) ::
              (oneFile (["1 2".toList] ++ ["3 4".toList])).written } :=
  ⟨by decide, by decide, by decide,
    convertToTsv_comment_dropped _ _ "in.mtx".toList "out.tsv".toList ["1 2".toList]
      ["3 4".toList] "%x".toList (by decide) (by decide) (by decide)⟩

/-- C4 (as stated, refuted): for the lines `%c`, `3 3 1`, `1  2   3.5` the
output is not the single data row; the dimensions line is written as well. -/
theorem convertToTsv_keeps_dimensions_line :
    convertToTsv (oneFile ["%c".toList, "3 3 1".toList, "1  2   3.5".toList])
        (some "in.mtx".toList) (some "out.tsv".toList)
      = .ok { oneFile ["%c".toList, "3 3 1".toList, "1  2   3.5".toList] with
          opened := ["in.mtx".toList],
          written := [("out.tsv".toList, "3\t3\t1\n1\t2\t3.5\n".toList)] } ∧
    "3\t3\t1\n1\t2\t3.5\n".toList ≠ "1\t2\t3.5\n".toList := by
  refine ⟨?_, by decide⟩
  rw [convertToTsv_of_lines _ "in.mtx".toList "out.tsv".toList
    ["%c".toList, "3 3 1".toList, "1  2   3.5".toList] (by decide)]
  have h : convertLoop [] ["%c".toList, "3 3 1".toList, "1  2   3.5".toList]
      = "3\t3\t1\n1\t2\t3.5\n".toList := by decide
  rw [h]
  rfl

/-- C4 (amended): for a file made of lines starting with `%`, then a dimensions
line, then data rows none of which starts with `%`, `convertToTsv` drops the
comment lines only: the output is the rewritten dimensions line followed by the
rewritten data rows, each with its terminator. -/
theorem convertToTsv_header_block (w : World) (p o : Str) (cs : List Str) (d : Str)
    (rows : List Str) (hfile : w.files p = some (cs ++ d :: rows))
    (hcs : ∀ c ∈ cs, isComment c = true) (hd : isComment d = false)
    (hrows : ∀ r ∈ rows, isComment r = false) :
    convertToTsv w (some p) (some o)
      = .ok { w with
          opened := p :: w.opened,
          written := (o, (replaceWs d ++ ['\n']) ++
            (rows.map (fun r => replaceWs r ++ ['\n'])).flatten) :: w.written } := by
  rw [convertToTsv_of_lines w p o _ hfile, convertLoop_append, convertLoop_comments cs hcs]
  have hall : ∀ r ∈ d :: rows, isComment r = false := by
    intro r hr
    rcases List.mem_cons.mp hr with rfl | hr
    · exact hd
    · exact hrows r hr
  rw [convertLoop_rows (d :: rows) hall]
  simp

theorem convertToTsv_header_block_witness :
    (oneFile (["%c".toList] ++ "3 3 1".toList :: ["1  2   3.5".toList])).files "in.mtx".toList
      = some (["%c".toList] ++ "3 3 1".toList :: ["1  2   3.5".toList]) ∧
    (∀ c ∈ ["%c".toList], isComment c = true) ∧
    isComment "3 3 1".toList = false ∧
    (∀ r ∈ ["1  2   3.5".toList], isComment r = false) ∧
    convertToTsv (oneFile (["%c".toList] ++ "3 3 1".toList :: ["1  2   3.5".toList]))
        (some "in.mtx".toList) (some "out.tsv".toList)
      = .ok { oneFile (["%c".toList] ++ "3 3 1".toList :: ["1  2   3.5".toList]) with
          opened := "in.mtx".toList ::
            (oneFile (["%c".toList] ++ "3 3 1".toList :: ["1  2   3.5".toList])).opened,
          written := ("out.tsv".toList, (replaceWs "3 3 1".toList ++ ['\n']) ++
              (["1  2   3.5".toList].map (fun r => replaceWs r ++ ['\n'])).flatten) ::
            (oneFile (["%c".toList] ++ "3 3 1".toList :: ["1  2   3.5".toList])).written } :=
  ⟨by decide, by decide, by decide, by decide,
    convertToTsv_header_block _ "in.mtx".toList "out.tsv".toList ["%c".toList] "3 3 1".toList
      ["1  2   3.5".toList] (by decide) (by decide) (by decide) (by decide)⟩

/-- C7 (the code at the failing input): for the line `1 2` the text
`convertToTsv` writes ends in a bare LF, so on a host whose terminator is CR LF
it is not the rewritten line followed by the host terminator, whereas
`writeFile` on such a host does produce CR LF. -/
theorem convertToTsv_writes_bare_lf :
    convertToTsv (oneFile ["1 2".toList]) (some "in.mtx".toList) (some "out.tsv".toList)
      = .ok { oneFile ["1 2".toList] with
          opened := ["in.mtx".toList],
          written := [("out.tsv".toList, "1\t2\n".toList)] } ∧
    isComment "1 2".toList = false ∧
    "1\t2\n".toList ≠ replaceWs "1 2".toList ++ "\r\n".toList ∧
    writeFile "\r\n".toList "1\t2\n".toList = replaceWs "1 2".toList ++ "\r\n".toList := by
  refine ⟨?_, by decide, by decide, by decide⟩
  rw [convertToTsv_of_lines _ "in.mtx".toList "out.tsv".toList ["1 2".toList] (by decide)]
  have h : convertLoop [] ["1 2".toList] = "1\t2\n".toList := by decide
  rw [h]
  rfl

theorem emitLoop_acc (out xs : List Str) : emitLoop out xs = out ++ emitLoop [] xs := by
  induction xs generalizing out with
  | nil => simp [emitLoop]
  | cons x xs ih =>
    cases hx : isComment x with
    | true => simp only [emitLoop, hx, if_true]; exact ih out
    | false =>
      simp only [emitLoop, hx, Bool.false_eq_true, if_false]
      rw [ih (out ++ [replaceWs x]), ih ([] ++ [replaceWs x])]
      simp

theorem emitLoop_cons_comment (x : Str) (xs : List Str) (hx : isComment x = true) :
    emitLoop [] (x :: xs) = emitLoop [] xs := by
  rw [emitLoop, if_pos hx]

theorem emitLoop_cons_row (x : Str) (xs : List Str) (hx : isComment x = false) :
    emitLoop [] (x :: xs) = replaceWs x :: emitLoop [] xs := by
  rw [emitLoop, if_neg (by rw [hx]; decide), emitLoop_acc]
  rfl

theorem convertLoop_eq_emitLoop (xs : List Str) :
    convertLoop [] xs = ((emitLoop [] xs).map (fun l => l ++ ['\n'])).flatten := by
  induction xs with
  | nil => rfl
  | cons x xs ih =>
    cases hx : isComment x with
    | true =>
      rw [emitLoop_cons_comment x xs hx, ← ih, convertLoop, if_pos hx]
    | false =>
      rw [emitLoop_cons_row x xs hx, convertLoop, if_neg (by rw [hx]; decide), convertLoop_acc, ih]
      simp

theorem emitLoop_lines (xs : List Str) :
    ∀ l ∈ emitLoop [] xs, isComment l = false ∧ '\n' ∉ l ∧ '\r' ∉ l := by
  induction xs with
  | nil => intro l hl; simp [emitLoop] at hl
  | cons x xs ih =>
    cases hx : isComment x with
    | true => rw [emitLoop_cons_comment x xs hx]; exact ih
    | false =>
      rw [emitLoop_cons_row x xs hx]
      intro l hl
      rcases List.mem_cons.mp hl with h | h
      · rw [h]
        exact ⟨isComment_replaceWs x hx, not_mem_replaceWs x '\n' (by decide) (by decide),
          not_mem_replaceWs x '\r' (by decide) (by decide)⟩
      · exact ih l h

theorem emitLoop_emitLoop (xs : List Str) : emitLoop [] (emitLoop [] xs) = emitLoop [] xs := by
  induction xs with
  | nil => rfl
  | cons x xs ih =>
    cases hx : isComment x with
    | true => rw [emitLoop_cons_comment x xs hx]; exact ih
    | false =>
      rw [emitLoop_cons_row x xs hx,
        emitLoop_cons_row (replaceWs x) _ (isComment_replaceWs x hx), ih, replaceWs_replaceWs]

theorem splitOn_terminated (es : List Str) (hes : ∀ l ∈ es, '\n' ∉ l) :
    ((es.map (fun l => l ++ ['\n'])).flatten).splitOn '\n' = es ++ [[]] := by
  induction es with
  | nil => rfl
  | cons e es ih =>
    have he : ∀ x ∈ e, ¬ ((x == '\n') = true) := by
      intro x hx hxe
      rw [beq_iff_eq] at hxe
      exact hes e (List.mem_cons_self e es) (hxe ▸ hx)
    have hrest := ih (fun l hl => hes l (List.mem_cons_of_mem e hl))
    have hsplit := List.splitOnP_first (fun x => x == '\n') e he '\n' (by simp)
      ((es.map (fun l => l ++ ['\n'])).flatten)
    simp only [List.splitOn] at hrest ⊢
    simp only [List.map_cons, List.flatten_cons, List.append_assoc, List.singleton_append,
      List.cons_append, List.nil_append]
    rw [hsplit, hrest]

/-- C13: `convertToTsv` is idempotent on line sequences.  The text it writes
for the lines `xs` is the lines of `emitLoop [] xs`, each followed by LF;
none of these lines starts with `%` or contains LF or CR, splitting the text
at each LF gives them back, and converting a file that holds these lines
writes the same text again. -/
theorem convertToTsv_idempotent (w1 w2 : World) (p o : Str) (xs : List Str)
    (h1 : w1.files p = some xs) (h2 : w2.files p = some (emitLoop [] xs)) :
    (∀ l ∈ emitLoop [] xs, isComment l = false ∧ '\n' ∉ l ∧ '\r' ∉ l) ∧
    emitLoop [] (emitLoop [] xs) = emitLoop [] xs ∧
    ∃ text,
      text = ((emitLoop [] xs).map (fun l => l ++ ['\n'])).flatten ∧
      text.splitOn '\n' = emitLoop [] xs ++ [[]] ∧
      convertToTsv w1 (some p) (some o)
        = .ok { w1 with opened := p :: w1.opened, written := (o, text) :: w1.written } ∧
      convertToTsv w2 (some p) (some o)
        = .ok { w2 with opened := p :: w2.opened, written := (o, text) :: w2.written } := by
  refine ⟨emitLoop_lines xs, emitLoop_emitLoop xs, _, rfl,
    splitOn_terminated _ (fun l hl => (emitLoop_lines xs l hl).2.1), ?_, ?_⟩
  · rw [convertToTsv_of_lines w1 p o xs h1, convertLoop_eq_emitLoop]
  · rw [convertToTsv_of_lines w2 p o _ h2, convertLoop_eq_emitLoop, emitLoop_emitLoop]

theorem convertToTsv_idempotent_witness :
    (oneFile ["%c".toList, "3 3 1".toList, "% d".toList, " 1  2\r".toList]).files "in.mtx".toList
      = some ["%c".toList, "3 3 1".toList, "% d".toList, " 1  2\r".toList] ∧
    (oneFile ["3\t3\t1".toList, "\t1\t2\t".toList]).files "in.mtx".toList
      = some (emitLoop [] ["%c".toList, "3 3 1".toList, "% d".toList, " 1  2\r".toList]) ∧
    (∀ l ∈ emitLoop [] ["%c".toList, "3 3 1".toList, "% d".toList, " 1  2\r".toList],
      isComment l = false ∧ '\n' ∉ l ∧ '\r' ∉ l) ∧
    emitLoop [] (emitLoop [] ["%c".toList, "3 3 1".toList, "% d".toList, " 1  2\r".toList])
      = emitLoop [] ["%c".toList, "3 3 1".toList, "% d".toList, " 1  2\r".toList] ∧
    ∃ text,
      text = ((emitLoop [] ["%c".toList, "3 3 1".toList, "% d".toList, " 1  2\r".toList]).map
        (fun l => l ++ ['\n'])).flatten ∧
      text.splitOn '\n'
        = emitLoop [] ["%c".toList, "3 3 1".toList, "% d".toList, " 1  2\r".toList] ++ [[]] ∧
      convertToTsv (oneFile ["%c".toList, "3 3 1".toList, "% d".toList, " 1  2\r".toList])
          (some "in.mtx".toList) (some "out.tsv".toList)
        = .ok { oneFile ["%c".toList, "3 3 1".toList, "% d".toList, " 1  2\r".toList] with
            opened := "in.mtx".toList ::
              (oneFile ["%c".toList, "3 3 1".toList, "% d".toList, " 1  2\r".toList]).opened,
            written := ("out.tsv".toList, text) ::
              (oneFile ["%c".toList, "3 3 1".toList, "% d".toList, " 1  2\r".toList]).written } ∧
      convertToTsv (oneFile ["3\t3\t1".toList, "\t1\t2\t".toList])
          (some "in.mtx".toList) (some "out.tsv".toList)
        = .ok { oneFile ["3\t3\t1".toList, "\t1\t2\t".toList] with
            opened := "in.mtx".toList ::
              (oneFile ["3\t3\t1".toList, "\t1\t2\t".toList]).opened,
            written := ("out.tsv".toList, text) ::
              (oneFile ["3\t3\t1".toList, "\t1\t2\t".toList]).written } :=
  ⟨by decide, by decide,
    convertToTsv_idempotent _ _ "in.mtx".toList "out.tsv".toList
      ["%c".toList, "3 3 1".toList, "% d".toList, " 1  2\r".toList] (by decide) (by decide)⟩

/-! ## Dispatcher -/

/-- C10: for a command string other than `header-lines` and `convert-to-tsv`,
whatever the path arguments, `main` appends to standard error a message that
contains the command string, leaves standard output untouched, and opens and
writes no file. -/
theorem main_unknown_command (cmd : Str) (inp out : Option Str) (w : World)
    (h1 : cmd ≠ "header-lines".toList) (h2 : cmd ≠ "convert-to-tsv".toList) :
    ∃ w1 msg, main (some cmd) inp out w = .ok w1 ∧
      w1.stderr = w.stderr ++ msg ∧ cmd <:+: msg ∧
      msg = "error: \"".toList ++ cmd ++ "\"?\n".toList ∧
      w1.stdout = w.stdout ∧ w1.opened = w.opened ∧ w1.written = w.written ∧
      w1.files = w.files := by
  refine ⟨{ w with stderr := w.stderr ++ ("error: \"".toList ++ render (some cmd) ++ "\"?\n".toList) },
    "error: \"".toList ++ cmd ++ "\"?\n".toList, ?_, ?_, ?_, rfl, rfl, rfl, rfl, rfl⟩
  · have e1 : ¬ (some cmd = some "header-lines".toList) := fun h => h1 (Option.some.inj h)
    have e2 : ¬ (some cmd = some "convert-to-tsv".toList) := fun h => h2 (Option.some.inj h)
    unfold main
    rw [if_neg e1, if_neg e2]
  · simp [render]
  · exact ⟨"error: \"".toList, "\"?\n".toList, rfl⟩

theorem main_unknown_command_witness :
    "frobnicate".toList ≠ "header-lines".toList ∧
    "frobnicate".toList ≠ "convert-to-tsv".toList ∧
    ∃ w1 msg, main (some "frobnicate".toList) (some "in.mtx".toList) (some "out.tsv".toList)
        (oneFile []) = .ok w1 ∧
      w1.stderr = (oneFile []).stderr ++ msg ∧ "frobnicate".toList <:+: msg ∧
      msg = "error: \"".toList ++ "frobnicate".toList ++ "\"?\n".toList ∧
      w1.stdout = (oneFile []).stdout ∧ w1.opened = (oneFile []).opened ∧
      w1.written = (oneFile []).written ∧ w1.files = (oneFile []).files :=
  ⟨by decide, by decide,
    main_unknown_command "frobnicate".toList (some "in.mtx".toList) (some "out.tsv".toList)
      (oneFile []) (by decide) (by decide)⟩

theorem digitChar_isDigit : ∀ k, k < 10 → (Nat.digitChar k).isDigit = true := by
  decide

theorem toDigitsCore_isDigit (fuel n : Nat) (ds : List Char)
    (hds : ∀ c ∈ ds, c.isDigit = true) :
    ∀ c ∈ Nat.toDigitsCore 10 fuel n ds, c.isDigit = true := by
  induction fuel generalizing n ds with
  | zero => simpa [Nat.toDigitsCore] using hds
  | succ fuel ih =>
    have hcons : ∀ c ∈ Nat.digitChar (n % 10) :: ds, c.isDigit = true := by
      intro c hc
      rcases List.mem_cons.mp hc with h | h
      · rw [h]
        exact digitChar_isDigit (n % 10) (Nat.mod_lt n (by decide))
      · exact hds c h
    unfold Nat.toDigitsCore
    by_cases hn : n / 10 = 0
    · simpa [hn] using hcons
    · simp only [hn, if_false]
      exact ih (n / 10) _ hcons

theorem toDigits_isDigit (n : Nat) : ∀ c ∈ Nat.toDigits 10 n, c.isDigit = true :=
  toDigitsCore_isDigit (n + 1) n [] (by simp)

/-- C12: for the command `header-lines` and a readable input file, `main`
appends to standard output one line, the decimal digits of the value
`headerLines` returns for that file followed by LF, and writes no file and
nothing to standard error. -/
theorem main_header_lines (w : World) (p : Str) (out : Option Str) (lines : List Str)
    (hfile : w.files p = some lines) :
    ∃ n w1, headerLines w (some p) = .ok (n, w1) ∧
      main (some "header-lines".toList) (some p) out w
        = .ok { w with opened := p :: w.opened,
                       stdout := w.stdout ++ (Nat.toDigits 10 n ++ ['\n']) } ∧
      (∀ c ∈ Nat.toDigits 10 n, c.isDigit = true) ∧ '\n' ∉ Nat.toDigits 10 n ∧
      w1.written = w.written ∧ w1.stderr = w.stderr ∧ w1.stdout = w.stdout := by
  refine ⟨headerLoop 0 lines + 1, { w with opened := p :: w.opened },
    headerLines_of_lines w p lines hfile, ?_, toDigits_isDigit _, ?_, rfl, rfl, rfl⟩
  · unfold main
    rw [if_pos rfl, headerLines_of_lines w p lines hfile]
  · intro h
    have := toDigits_isDigit _ _ h
    revert this
    decide

theorem main_header_lines_witness :
    (oneFile ["%comment".toList, "%comment2".toList, "3 3 5".toList, "1 1 1.0".toList]).files
        "in.mtx".toList
      = some ["%comment".toList, "%comment2".toList, "3 3 5".toList, "1 1 1.0".toList] ∧
    Nat.toDigits 10 3 = "3".toList ∧
    ∃ n w1,
      headerLines
          (oneFile ["%comment".toList, "%comment2".toList, "3 3 5".toList, "1 1 1.0".toList])
          (some "in.mtx".toList) = .ok (n, w1) ∧
      main (some "header-lines".toList) (some "in.mtx".toList) none
          (oneFile ["%comment".toList, "%comment2".toList, "3 3 5".toList, "1 1 1.0".toList])
        = .ok { oneFile ["%comment".toList, "%comment2".toList, "3 3 5".toList,
                  "1 1 1.0".toList] with
            opened := "in.mtx".toList ::
              (oneFile ["%comment".toList, "%comment2".toList, "3 3 5".toList,
                "1 1 1.0".toList]).opened,
            stdout := (oneFile ["%comment".toList, "%comment2".toList, "3 3 5".toList,
                "1 1 1.0".toList]).stdout ++ (Nat.toDigits 10 n ++ ['\n']) } ∧
      (∀ c ∈ Nat.toDigits 10 n, c.isDigit = true) ∧ '\n' ∉ Nat.toDigits 10 n ∧
      w1.written
        = (oneFile ["%comment".toList, "%comment2".toList, "3 3 5".toList,
            "1 1 1.0".toList]).written ∧
      w1.stderr
        = (oneFile ["%comment".toList, "%comment2".toList, "3 3 5".toList,
            "1 1 1.0".toList]).stderr ∧
      w1.stdout
        = (oneFile ["%comment".toList, "%comment2".toList, "3 3 5".toList,
            "1 1 1.0".toList]).stdout :=
  ⟨by decide, by decide,
    main_header_lines _ "in.mtx".toList none
      ["%comment".toList, "%comment2".toList, "3 3 5".toList, "1 1 1.0".toList] (by decide)⟩

end Process
